import Mathlib

/-!
Shallow embedding of the transit-query program in src/challenge.py and
verification of the specified properties of its core: the BFS path finder
over a stop/route adjacency map, the bidirectional adjacency builder, the
route statistics (fewest/most stops, transfer stops) and the fetch cache.
-/

namespace Subway

/-! ### The adjacency map

The program represents a graph as a Python dict from a node label to its
neighbors, built with a defaultdict so that looking up an absent key yields
no neighbors.  We embed it as an association list from labels to neighbor
lists, with lookup defaulting to the empty list. -/

abbrev AdjMap := List (String × List String)

/-- Dict lookup with the defaultdict default of no neighbors, as used by
the neighbor accesses in both compute_route_between and bfs. -/
def lookupNbrs : AdjMap → String → List String
  | [], _ => []
  | (k, vs) :: rest, n => if k = n then vs else lookupNbrs rest n

/-- All labels appearing as a neighbor value somewhere in the map. -/
def adjValues : AdjMap → List String
  | [] => []
  | (_, vs) :: rest => vs ++ adjValues rest

/-- Every label appearing anywhere in the map, as key or as value. -/
def graphLabels (g : AdjMap) : List String := g.map Prod.fst ++ adjValues g

/-- There is a directed edge from a to b when b occurs among the stored
neighbors of a. -/
def adjEdge (g : AdjMap) (a b : String) : Prop := b ∈ lookupNbrs g a

instance (g : AdjMap) (a b : String) : Decidable (adjEdge g a b) :=
  inferInstanceAs (Decidable (b ∈ lookupNbrs g a))

/-- A structurally recursive decider for edge chains, so that concrete
walks can be checked by evaluation. -/
def chainDec (g : AdjMap) : (p : List String) →
    Decidable (List.Chain' (adjEdge g) p)
  | [] => isTrue (by simp)
  | [a] => isTrue (List.chain'_singleton a)
  | a :: b :: t =>
    have : Decidable (List.Chain' (adjEdge g) (b :: t)) := chainDec g (b :: t)
    decidable_of_iff (adjEdge g a b ∧ List.Chain' (adjEdge g) (b :: t))
      List.chain'_cons.symm

instance (g : AdjMap) (p : List String) :
    Decidable (List.Chain' (adjEdge g) p) := chainDec g p

/-- p is a walk in g from s to e: nonempty, starting at s, ending at e,
with every consecutive pair an edge of g. -/
def IsPathFrom (g : AdjMap) (s e : String) (p : List String) : Prop :=
  p ≠ [] ∧ p.head? = some s ∧ p.getLast? = some e ∧ List.Chain' (adjEdge g) p

instance (g : AdjMap) (s e : String) (p : List String) :
    Decidable (IsPathFrom g s e p) :=
  inferInstanceAs (Decidable (_ ∧ _ ∧ _ ∧ _))

/-- e is reachable from s in g (there is some walk from s to e). -/
def Reach (g : AdjMap) (s e : String) : Prop := ∃ p, IsPathFrom g s e p

/-! ### The BFS path finder (lines 134-149 of src/challenge.py)

The Python loop body, for the dequeued node curr with recorded path,
iterates over its neighbors and, for each one not yet visited, appends it
to visited and enqueues it paired with path + [curr].  stepFold is that
inner for-loop; bfsAux is the while-loop, made total with a fuel argument
large enough (bfsFuel) that the fuel never runs out before the queue
empties. -/

def stepFold : List String → List String → List String →
    List (String × List String) → List String × List (String × List String)
  | [], _, visited, queue => (visited, queue)
  | m :: ms, newPath, visited, queue =>
    if m ∈ visited then stepFold ms newPath visited queue
    else stepFold ms newPath (visited ++ [m]) (queue ++ [(m, newPath)])

def bfsAux (g : AdjMap) (goal : String) :
    Nat → List String → List (String × List String) → Option (List String)
  | 0, _, _ => none
  | _ + 1, _, [] => none
  | fuel + 1, visited, (curr, path) :: rest =>
    if curr = goal then some (path ++ [curr])
    else
      let st := stepFold (lookupNbrs g curr) (path ++ [curr]) visited rest
      bfsAux g goal fuel st.1 st.2

/-- An upper bound on the number of loop iterations: every dequeued entry
was enqueued, every enqueued node is added to the duplicate-free visited
list at the same time, and visited can only hold start and neighbor
values. -/
def bfsFuel (g : AdjMap) (start : String) : Nat :=
  (start :: adjValues g).length + 1

/-- The bfs function: visited seeded with [start], queue with
(start, empty path). -/
def bfs (g : AdjMap) (start goal : String) : Option (List String) :=
  bfsAux g goal (bfsFuel g start) [start] [(start, [])]

/-! ### The Transit Data Source model (section 6 of the spec)

The remote API is abstracted as a list of route records (id, long_name)
together with a function from a route id to the names of its stops, which
is what get_all_subway_routes and get_all_stops_for_route deliver to the
three analyses after JSON field extraction. -/

structure RouteRec where
  id : String
  long_name : String
deriving DecidableEq

/-! ### The adjacency builder (compute_route_between, lines 113-129)

neighbors is a defaultdict of sets; neighbors[k].add(v) appends v to the
entry of k, creating the entry at the end of the dict on first access and
skipping the append when v is already present (set semantics). -/

def addNbr : AdjMap → String → String → AdjMap
  | [], k, v => [(k, [v])]
  | (k', vs) :: rest, k, v =>
    if k' = k then (k', if v ∈ vs then vs else vs ++ [v]) :: rest
    else (k', vs) :: addNbr rest k v

/-- The body of the inner loop of compute_route_between (lines 126-127):
neighbors[stop_name].add(route_name) then neighbors[route_name].add(stop_name). -/
def addPair (g : AdjMap) (stopName routeName : String) : AdjMap :=
  addNbr (addNbr g stopName routeName) routeName stopName

/-- The doubly nested loop of compute_route_between: for each route and
each of its stops, add the route name to the stop's neighbors and the stop
name to the route's neighbors, in that order. -/
def buildAdjacency (routes : List RouteRec) (stopsFor : String → List String) :
    AdjMap :=
  routes.foldl
    (fun g route =>
      (stopsFor route.id).foldl
        (fun g' stopName => addPair g' stopName route.long_name) g)
    []

/-- The inner stop loop of compute_route_between over one route name. -/
def innerPairs (routeName : String) (stops : List String) (g : AdjMap) : AdjMap :=
  stops.foldl (fun g' stopName => addPair g' stopName routeName) g

/-- The adjacency map is symmetric: every stored edge has its reverse
stored as well. -/
def SymAdj (g : AdjMap) : Prop :=
  ∀ a b, b ∈ lookupNbrs g a → a ∈ lookupNbrs g b

/-! ### Stop-to-routes and route-to-stops maps (lines 66-88) -/

/-- defaultdict(lambda: []) append: extend the entry of k with v, creating
the entry at the end on first access (get_stop_to_routes, line 86). -/
def appendAt : List (String × List String) → String → String →
    List (String × List String)
  | [], k, v => [(k, [v])]
  | (k', vs) :: rest, k, v =>
    if k' = k then (k', vs ++ [v]) :: rest else (k', vs) :: appendAt rest k v

/-- get_stop_to_routes: for each route and each of its stops, append the
route's long name to the stop's route list. -/
def get_stop_to_routes (routes : List RouteRec) (stopsFor : String → List String) :
    List (String × List String) :=
  routes.foldl
    (fun m route =>
      (stopsFor route.id).foldl (fun m' s => appendAt m' s route.long_name) m)
    []

/-- Plain dict assignment d[k] = v: overwrite the entry if the key is
present, otherwise append it (get_route_to_stops, line 73). -/
def dictSet : List (String × List String) → String → List String →
    List (String × List String)
  | [], k, v => [(k, v)]
  | (k', vs) :: rest, k, v =>
    if k' = k then (k', v) :: rest else (k', vs) :: dictSet rest k v

/-- get_route_to_stops: route long name mapped to the list of its stop
names, in record order. -/
def get_route_to_stops (routes : List RouteRec) (stopsFor : String → List String) :
    List (String × List String) :=
  routes.foldl (fun m route => dictSet m route.long_name (stopsFor route.id)) []

/-! ### Route statistics (lines 39-43 and 48-63)

Python min/max over the dict keys with key=len(dict[route]) returns the
first key attaining the extremal list length; on an empty dict they raise
ValueError, embedded as none. -/

def minEntry : Option (String × List String) → List (String × List String) →
    Option (String × List String)
  | acc, [] => acc
  | none, kv :: rest => minEntry (some kv) rest
  | some best, kv :: rest =>
    minEntry (some (if kv.2.length < best.2.length then kv else best)) rest

def maxEntry : Option (String × List String) → List (String × List String) →
    Option (String × List String)
  | acc, [] => acc
  | none, kv :: rest => maxEntry (some kv) rest
  | some best, kv :: rest =>
    maxEntry (some (if best.2.length < kv.2.length then kv else best)) rest

def compute_route_with_least_stops (m : List (String × List String)) :
    Option (String × Nat) :=
  match minEntry none m with
  | none => none
  | some kv => some (kv.1, kv.2.length)

def compute_route_with_most_stops (m : List (String × List String)) :
    Option (String × Nat) :=
  match maxEntry none m with
  | none => none
  | some kv => some (kv.1, kv.2.length)

/-- The transfer-stop loop of q2 (lines 41-43): report exactly the entries
of the stop-to-routes map whose route list has more than one element. -/
def transferStops (m : List (String × List String)) :
    List (String × List String) :=
  m.filter fun kv => decide (1 < kv.2.length)

/-! ### The fetch cache (get_cached, lines 155-167)

A response carries an HTTP status and a payload that either parsed as JSON
or did not (the .json() call happens at the caller, after get_cached has
returned).  The data source is a function from a URL to either a transport
error or a response.  get_cached returns the result, the updated cache and
the number of underlying data-source invocations it performed (0 or 1);
raise_for_status errors out on any status of 400 or above before the
response is stored. -/

structure Resp (α : Type) where
  status : Nat
  body : Except String α

instance {α : Type} [DecidableEq α] : DecidableEq (Except String α) :=
  fun a b =>
    match a, b with
    | Except.ok x, Except.ok y =>
      if h : x = y then isTrue (by rw [h]) else isFalse (by simp [h])
    | Except.error x, Except.error y =>
      if h : x = y then isTrue (by rw [h]) else isFalse (by simp [h])
    | Except.ok _, Except.error _ => isFalse (by simp)
    | Except.error _, Except.ok _ => isFalse (by simp)

instance {α : Type} [DecidableEq α] : DecidableEq (Resp α) :=
  fun a b =>
    if h : a.status = b.status ∧ a.body = b.body then
      isTrue (by cases a; cases b; simp_all)
    else isFalse (by cases a; cases b; simp_all)

def lookupCache {α : Type} : List (String × α) → String → Option α
  | [], _ => none
  | (k, v) :: rest, url => if k = url then some v else lookupCache rest url

def get_cached {α : Type} (fetch : String → Except String (Resp α))
    (cache : List (String × Resp α)) (url : String) :
    Except String (Resp α) × List (String × Resp α) × Nat :=
  match lookupCache cache url with
  | some r => (Except.ok r, cache, 0)
  | none =>
    match fetch url with
    | Except.error e => (Except.error e, cache, 1)
    | Except.ok r =>
      if 400 ≤ r.status then (Except.error "HTTPError", cache, 1)
      else (Except.ok r, cache ++ [(url, r)], 1)

/-- What every caller of get_cached in the program does with the result:
call .json() on it, which surfaces a malformed payload as an error only
after get_cached has finished. -/
def getJson {α : Type} (fetch : String → Except String (Resp α))
    (cache : List (String × Resp α)) (url : String) :
    Except String α × List (String × Resp α) × Nat :=
  match get_cached fetch cache url with
  | (Except.ok r, c, k) => (r.body, c, k)
  | (Except.error e, c, k) => (Except.error e, c, k)

/-! ### Concrete inputs used by witnesses and counterexamples -/

/-- A one-edge graph. -/
def gAB : AdjMap := [("A", ["B"])]

/-- The route-to-stops example from the spec's testable properties. -/
def rbExample : List (String × List String) :=
  [("Red", ["a", "b", "c"]), ("Blue", ["a", "b"])]

/-- A route-to-stops map whose stop lists contain a repeated stop name. -/
def dupStops : List (String × List String) :=
  [("Red", ["a", "a"]), ("Blue", ["b", "c"])]

/-- A stop served twice by the same route name. -/
def dupRoutes : List (String × List String) := [("Park", ["Red", "Red"])]

/-- A stub data source whose payload parsed successfully. -/
def stubFetchOk : String → Except String (Resp (List String)) :=
  fun _ => Except.ok ⟨200, Except.ok ["x"]⟩

/-- The response of a stub data source: success status, malformed body. -/
def respBad : Resp (List String) := ⟨200, Except.error "malformed"⟩

/-- A stub data source returning a 200 status with a malformed body. -/
def stubFetchBad : String → Except String (Resp (List String)) :=
  fun _ => Except.ok respBad

/-- A stub data source failing with a transport error. -/
def stubFetchErr : String → Except String (Resp (List String)) :=
  fun _ => Except.error "transport"

/-- A stub data source answering with a 500 status. -/
def stubFetch500 : String → Except String (Resp (List String)) :=
  fun _ => Except.ok ⟨500, Except.ok []⟩

/-- Concrete route records for witnesses. -/
def routesW : List RouteRec := [⟨"r1", "Red"⟩, ⟨"r2", "Green"⟩]

/-- Concrete stop lists for witnesses. -/
def stopsForW : String → List String :=
  fun i => if i = "r1" then ["Park", "Wood"] else ["Park"]

/-! ### The BFS loop invariant

The state of the while loop is the visited list and the queue of
(node, path-to-node) entries.  The invariant records: visited is
duplicate-free and drawn from the seed and the neighbor values; every
queued node is visited, carries a duplicate-free walk from start made of
visited nodes, and that walk is of minimum hop count; queue entry path
lengths are sorted and spread over at most two consecutive levels; every
node admitting a walk no longer than one step past the front level is
already visited; a visited node no longer in the queue has all its
neighbors visited; and the goal, once visited, is still in the queue. -/

structure BfsInv (g : AdjMap) (start goal : String) (v : List String)
    (q : List (String × List String)) : Prop where
  start_vis : start ∈ v
  vis_nodup : v.Nodup
  vis_allowed : ∀ x ∈ v, x ∈ start :: adjValues g
  q_vis : ∀ e ∈ q, (e : String × List String).1 ∈ v
  q_path : ∀ e ∈ q, IsPathFrom g start (e : String × List String).1 (e.2 ++ [e.1])
  q_path_nodup : ∀ e ∈ q, ((e : String × List String).2 ++ [e.1]).Nodup
  q_path_vis : ∀ e ∈ q, ∀ x ∈ (e : String × List String).2 ++ [e.1], x ∈ v
  q_short : ∀ e ∈ q, ∀ qp, IsPathFrom g start (e : String × List String).1 qp →
    e.2.length + 1 ≤ qp.length
  levels_sorted : (q.map fun e => e.2.length).Pairwise (· ≤ ·)
  levels_spread : ∀ hd, q.head? = some hd →
    ∀ e ∈ q, (e : String × List String).2.length ≤ hd.2.length + 1
  frontier_vis : ∀ hd, q.head? = some hd → ∀ w qp, IsPathFrom g start w qp →
    qp.length ≤ hd.2.length + 1 → w ∈ v
  closed : ∀ u ∈ v, u ∉ q.map Prod.fst → ∀ m ∈ lookupNbrs g u, m ∈ v
  goal_in_q : goal ∈ v → goal ∈ q.map Prod.fst

end Subway

namespace Subway

/-! ## Lemmas about the graph model -/

theorem lookupNbrs_subset_adjValues (g : AdjMap) (n : String) :
    ∀ x ∈ lookupNbrs g n, x ∈ adjValues g := by
  induction g with
  | nil => simp [lookupNbrs]
  | cons kv rest ih =>
    obtain ⟨k, vs⟩ := kv
    intro x hx
    simp only [lookupNbrs] at hx
    simp only [adjValues, List.mem_append]
    by_cases h : k = n
    · rw [if_pos h] at hx; exact Or.inl hx
    · rw [if_neg h] at hx; exact Or.inr (ih x hx)

theorem isPathFrom_singleton (g : AdjMap) (s : String) :
    IsPathFrom g s s [s] :=
  ⟨by simp, rfl, rfl, List.chain'_singleton _⟩

theorem isPathFrom_short (g : AdjMap) (s e : String) (p : List String)
    (h : IsPathFrom g s e p) (hl : p.length ≤ 1) : e = s ∧ p = [s] := by
  obtain ⟨hne, hhd, hlast, _⟩ := h
  match p with
  | [] => exact absurd rfl hne
  | [x] =>
    simp only [List.head?] at hhd
    simp only [List.getLast?] at hlast
    obtain rfl : x = s := by injection hhd
    obtain rfl : x = e := by injection hlast
    exact ⟨rfl, rfl⟩
  | x :: y :: t => simp at hl

theorem isPathFrom_append (g : AdjMap) (s u w : String) (q : List String)
    (h : IsPathFrom g s u q) (he : adjEdge g u w) :
    IsPathFrom g s w (q ++ [w]) := by
  obtain ⟨hne, hhd, hlast, hch⟩ := h
  refine ⟨by simp, ?_, ?_, ?_⟩
  · rw [List.head?_append_of_ne_nil _ hne]; exact hhd
  · exact List.getLast?_concat _
  · refine List.chain'_append.mpr ⟨hch, List.chain'_singleton _, ?_⟩
    intro x hx y hy
    rw [hlast] at hx
    have hux : u = x := Option.some.inj (Option.mem_def.mp hx)
    have hwy : w = y := Option.some.inj (Option.mem_def.mp hy)
    rw [← hux, ← hwy]
    exact he

theorem isPathFrom_decomp (g : AdjMap) (s w : String) (p : List String)
    (h : IsPathFrom g s w p) (h2 : 2 ≤ p.length) :
    ∃ q u, p = q ++ [w] ∧ IsPathFrom g s u q ∧ adjEdge g u w ∧
      q.length + 1 = p.length := by
  obtain ⟨hne, hhd, hlast, hch⟩ := h
  have hq : p.dropLast ++ [p.getLast hne] = p := List.dropLast_append_getLast hne
  have hw : p.getLast hne = w :=
    Option.some.inj ((List.getLast?_eq_getLast p hne).symm.trans hlast)
  have hqlen : p.dropLast.length + 1 = p.length := by
    rw [List.length_dropLast]; omega
  have hqne : p.dropLast ≠ [] := by
    intro hc
    rw [hc] at hqlen
    simp at hqlen
    omega
  have hdec := List.chain'_append.mp (by rw [hq]; exact hch)
  refine ⟨p.dropLast, p.dropLast.getLast hqne, by rw [hw] at hq; exact hq.symm,
    ⟨hqne, ?_, List.getLast?_eq_getLast _ hqne, hdec.1⟩, ?_, hqlen⟩
  · rw [← hq, List.head?_append_of_ne_nil _ hqne] at hhd
    exact hhd
  · have := hdec.2.2 (p.dropLast.getLast hqne) (List.getLast?_eq_getLast _ hqne)
      (p.getLast hne) rfl
    rw [hw] at this
    exact this

theorem reach_closed (g : AdjMap) (V : List String)
    (hcl : ∀ u ∈ V, ∀ m ∈ lookupNbrs g u, m ∈ V) :
    ∀ (p : List String) (a w : String), IsPathFrom g a w p → a ∈ V → w ∈ V := by
  intro p
  induction p with
  | nil => intro a w h _; exact absurd rfl h.1
  | cons x t ih =>
    intro a w h ha
    obtain ⟨_, hhd, hlast, hch⟩ := h
    have hxa : x = a := Option.some.inj hhd
    have hxV : x ∈ V := by rw [hxa]; exact ha
    cases t with
    | nil =>
      have hxw : x = w := Option.some.inj hlast
      rw [← hxw]
      exact hxV
    | cons y t2 =>
      rw [List.chain'_cons] at hch
      rw [List.getLast?_cons_cons] at hlast
      have hy : y ∈ V := hcl x hxV y hch.1
      exact ih y w ⟨by simp, rfl, hlast, hch.2⟩ hy

theorem reach_mem_adjValues (g : AdjMap) (s e : String) (h : Reach g s e)
    (hne : e ≠ s) : e ∈ adjValues g := by
  obtain ⟨p, hp⟩ := h
  by_cases hl : p.length ≤ 1
  · exact absurd (isPathFrom_short g s e p hp hl).1 hne
  · obtain ⟨q, u, _, _, he, _⟩ := isPathFrom_decomp g s e p hp (by omega)
    exact lookupNbrs_subset_adjValues g u e he

/-! ## Lemmas about the BFS loop body -/

theorem stepFold_spec (ms np : List String) :
    ∀ (v : List String) (q : List (String × List String)),
      ∃ fresh : List String,
        (stepFold ms np v q).1 = v ++ fresh ∧
        (stepFold ms np v q).2 = q ++ fresh.map (fun m => (m, np)) ∧
        (∀ x ∈ fresh, x ∈ ms ∧ x ∉ v) ∧ fresh.Nodup ∧
        ∀ m ∈ ms, m ∈ v ++ fresh := by
  induction ms with
  | nil =>
    intro v q
    exact ⟨[], by simp [stepFold], by simp [stepFold], by simp, List.nodup_nil,
      by simp⟩
  | cons m ms ih =>
    intro v q
    by_cases hm : m ∈ v
    · obtain ⟨fresh, h1, h2, h3, h4, h5⟩ := ih v q
      refine ⟨fresh, ?_, ?_, ?_, h4, ?_⟩
      · simp only [stepFold, if_pos hm]; exact h1
      · simp only [stepFold, if_pos hm]; exact h2
      · intro x hx
        exact ⟨List.mem_cons_of_mem m (h3 x hx).1, (h3 x hx).2⟩
      · intro x hx
        rcases List.mem_cons.mp hx with rfl | hx'
        · exact List.mem_append_left _ hm
        · exact h5 x hx'
    · obtain ⟨fresh, h1, h2, h3, h4, h5⟩ := ih (v ++ [m]) (q ++ [(m, np)])
      have hrearr : ∀ (l : List String), (v ++ [m]) ++ l = v ++ (m :: l) := by
        intro l; rw [List.append_assoc]; rfl
      refine ⟨m :: fresh, ?_, ?_, ?_, ?_, ?_⟩
      · simp only [stepFold, if_neg hm]
        rw [h1, hrearr]
      · simp only [stepFold, if_neg hm]
        rw [h2, List.append_assoc]
        rfl
      · intro x hx
        rcases List.mem_cons.mp hx with rfl | hx'
        · exact ⟨List.mem_cons_self x ms, hm⟩
        · have := h3 x hx'
          refine ⟨List.mem_cons_of_mem m this.1, fun hc => this.2 ?_⟩
          exact List.mem_append_left _ hc
      · rw [List.nodup_cons]
        refine ⟨fun hc => (h3 m hc).2 (List.mem_append_right _ ?_), h4⟩
        simp
      · intro x hx
        rcases List.mem_cons.mp hx with rfl | hx'
        · exact List.mem_append_right _ (List.mem_cons_self x fresh)
        · have := h5 x hx'
          rw [hrearr] at this
          exact this

/-- A duplicate-free list drawn from L is no longer than L's number of
distinct elements. -/
theorem nodup_length_le_card (l L : List String) (hnd : l.Nodup)
    (hsub : ∀ x ∈ l, x ∈ L) : l.length ≤ L.toFinset.card := by
  rw [← List.toFinset_card_of_nodup hnd]
  exact Finset.card_le_card fun x hx =>
    List.mem_toFinset.mpr (hsub x (List.mem_toFinset.mp hx))

/-- The invariant holds for the seeded state of bfs (line 135-136). -/
theorem bfsInv_init (g : AdjMap) (start goal : String) :
    BfsInv g start goal [start] [(start, [])] := by
  refine ⟨List.mem_singleton_self start, List.nodup_singleton start, ?_, ?_, ?_,
    ?_, ?_, ?_, ?_, ?_, ?_, ?_, ?_⟩
  · intro x hx
    rw [List.mem_singleton.mp hx]
    exact List.mem_cons_self start _
  · intro e he
    rw [List.mem_singleton.mp he]
    exact List.mem_singleton_self start
  · intro e he
    rw [List.mem_singleton.mp he]
    exact isPathFrom_singleton g start
  · intro e he
    rw [List.mem_singleton.mp he]
    exact List.nodup_singleton start
  · intro e he x hx
    rw [List.mem_singleton.mp he] at hx
    simpa using hx
  · intro e he qp hqp
    rw [List.mem_singleton.mp he]
    have h1 : qp ≠ [] := hqp.1
    have h2 : 0 < qp.length := List.length_pos.mpr h1
    simpa using h2
  · simp
  · intro hd hhd e he
    rw [List.mem_singleton.mp he]
    simp
  · intro hd hhd w qp hqp hlen
    have hhd' : hd = (start, []) := Option.some.inj hhd.symm
    rw [hhd'] at hlen
    simp only [List.length_nil, Nat.zero_add] at hlen
    rw [List.mem_singleton]
    exact (isPathFrom_short g start w qp hqp hlen).1
  · intro u hu hnq
    rw [List.mem_singleton.mp hu] at hnq
    simp at hnq
  · intro hgo
    rw [List.mem_singleton.mp hgo]
    simp

/-- One iteration of the while loop (pop the front entry (n, p) with
n ≠ goal, then run the inner for-loop) preserves the invariant. -/
theorem bfsInv_step (g : AdjMap) (start goal : String) (v : List String)
    (n : String) (p : List String) (rest : List (String × List String))
    (hinv : BfsInv g start goal v ((n, p) :: rest)) (hne : n ≠ goal) :
    BfsInv g start goal (stepFold (lookupNbrs g n) (p ++ [n]) v rest).1
      (stepFold (lookupNbrs g n) (p ++ [n]) v rest).2 := by
  obtain ⟨fresh, hv, hq, hfr, hfnd, hcov⟩ :=
    stepFold_spec (lookupNbrs g n) (p ++ [n]) v rest
  rw [hv, hq]
  have hmemhd : ((n, p) : String × List String) ∈ (n, p) :: rest :=
    List.mem_cons_self _ _
  have pathN : IsPathFrom g start n (p ++ [n]) := hinv.q_path (n, p) hmemhd
  have shortN : ∀ qp, IsPathFrom g start n qp → p.length + 1 ≤ qp.length :=
    hinv.q_short (n, p) hmemhd
  have frontN : ∀ w qp, IsPathFrom g start w qp → qp.length ≤ p.length + 1 →
      w ∈ v := hinv.frontier_vis (n, p) rfl
  have spreadO : ∀ e ∈ (n, p) :: rest,
      (e : String × List String).2.length ≤ p.length + 1 :=
    hinv.levels_spread (n, p) rfl
  have sortedO : (∀ b ∈ rest.map (fun e => e.2.length), p.length ≤ b) ∧
      (rest.map fun e => e.2.length).Pairwise (· ≤ ·) := by
    have h := hinv.levels_sorted
    rw [List.map_cons, List.pairwise_cons] at h
    exact h
  have hnv : n ∈ v := hinv.q_vis (n, p) hmemhd
  have freshNbr : ∀ x ∈ fresh, x ∈ lookupNbrs g n := fun x hx => (hfr x hx).1
  have freshNew : ∀ x ∈ fresh, x ∉ v := fun x hx => (hfr x hx).2
  have hnplen : (p ++ [n]).length = p.length + 1 := by simp
  have hqfst : (rest ++ fresh.map fun m => (m, p ++ [n])).map Prod.fst
      = rest.map Prod.fst ++ fresh := by
    rw [List.map_append, List.map_map]
    simp [Function.comp_def]
  have hlevel_new : ∀ e ∈ fresh.map (fun m => (m, p ++ [n])),
      (e : String × List String).2.length = p.length + 1 := by
    intro e he
    obtain ⟨m, _, rfl⟩ := List.mem_map.mp he
    simp
  have hlev_all : ∀ e ∈ rest ++ fresh.map (fun m => (m, p ++ [n])),
      (e : String × List String).2.length ≤ p.length + 1 := by
    intro e he
    rcases List.mem_append.mp he with h | h
    · exact spreadO e (List.mem_cons_of_mem _ h)
    · exact (hlevel_new e h).le
  refine ⟨?_, ?_, ?_, ?_, ?_, ?_, ?_, ?_, ?_, ?_, ?_, ?_, ?_⟩
  -- start_vis
  · exact List.mem_append_left _ hinv.start_vis
  -- vis_nodup
  · rw [List.nodup_append]
    exact ⟨hinv.vis_nodup, hfnd, fun x hxv hxf => freshNew x hxf hxv⟩
  -- vis_allowed
  · intro x hx
    rcases List.mem_append.mp hx with h | h
    · exact hinv.vis_allowed x h
    · exact List.mem_cons_of_mem _
        (lookupNbrs_subset_adjValues g n x (freshNbr x h))
  -- q_vis
  · intro e he
    rcases List.mem_append.mp he with h | h
    · exact List.mem_append_left _ (hinv.q_vis e (List.mem_cons_of_mem _ h))
    · obtain ⟨m, hm, rfl⟩ := List.mem_map.mp h
      exact List.mem_append_right _ hm
  -- q_path
  · intro e he
    rcases List.mem_append.mp he with h | h
    · exact hinv.q_path e (List.mem_cons_of_mem _ h)
    · obtain ⟨m, hm, rfl⟩ := List.mem_map.mp h
      exact isPathFrom_append g start n m (p ++ [n]) pathN (freshNbr m hm)
  -- q_path_nodup
  · intro e he
    rcases List.mem_append.mp he with h | h
    · exact hinv.q_path_nodup e (List.mem_cons_of_mem _ h)
    · obtain ⟨m, hm, rfl⟩ := List.mem_map.mp h
      show ((p ++ [n]) ++ [m]).Nodup
      rw [List.nodup_append]
      refine ⟨hinv.q_path_nodup (n, p) hmemhd, List.nodup_singleton m, ?_⟩
      intro x hx hxm
      rw [List.mem_singleton.mp hxm] at hx
      exact freshNew m hm (hinv.q_path_vis (n, p) hmemhd m hx)
  -- q_path_vis
  · intro e he x hx
    rcases List.mem_append.mp he with h | h
    · exact List.mem_append_left _
        (hinv.q_path_vis e (List.mem_cons_of_mem _ h) x hx)
    · obtain ⟨m, hm, rfl⟩ := List.mem_map.mp h
      rcases List.mem_append.mp hx with h2 | h2
      · exact List.mem_append_left _ (hinv.q_path_vis (n, p) hmemhd x h2)
      · rw [List.mem_singleton.mp h2]
        exact List.mem_append_right _ hm
  -- q_short
  · intro e he qp hqp
    rcases List.mem_append.mp he with h | h
    · exact hinv.q_short e (List.mem_cons_of_mem _ h) qp hqp
    · obtain ⟨m, hm, rfl⟩ := List.mem_map.mp h
      show (p ++ [n]).length + 1 ≤ qp.length
      rw [hnplen]
      by_contra hc
      exact freshNew m hm (frontN m qp hqp (by omega))
  -- levels_sorted
  · rw [List.map_append, List.pairwise_append]
    have hlevL : ∀ a ∈ (fresh.map (fun m => (m, p ++ [n]))).map
        (fun e => e.2.length), a = p.length + 1 := by
      intro a ha
      obtain ⟨e, he, rfl⟩ := List.mem_map.mp ha
      exact hlevel_new e he
    refine ⟨sortedO.2, ?_, ?_⟩
    · exact List.pairwise_of_forall_mem_list fun a ha b hb => by
        rw [hlevL a ha, hlevL b hb]
    · intro a ha b hb
      obtain ⟨e, he, rfl⟩ := List.mem_map.mp ha
      rw [hlevL b hb]
      exact spreadO e (List.mem_cons_of_mem _ he)
  -- levels_spread
  · intro hd hhd e he
    have hd_mem := List.mem_of_mem_head? (Option.mem_def.mpr hhd)
    have h1 := hlev_all e he
    have h2 : p.length ≤ hd.2.length := by
      rcases List.mem_append.mp hd_mem with h | h
      · exact sortedO.1 _ (List.mem_map_of_mem _ h)
      · rw [hlevel_new hd h]; omega
    omega
  -- frontier_vis
  · intro hd hhd w qp hqp hlen
    have hd_mem := List.mem_of_mem_head? (Option.mem_def.mpr hhd)
    have hdub : hd.2.length ≤ p.length + 1 := hlev_all hd hd_mem
    by_cases hcase : qp.length ≤ p.length + 1
    · exact List.mem_append_left _ (frontN w qp hqp hcase)
    · have hqplen : qp.length = p.length + 2 := by omega
      obtain ⟨q₀, u, hqp_eq, hq₀, hedge, hq₀len⟩ :=
        isPathFrom_decomp g start w qp hqp (by omega)
      have hq₀l : q₀.length = p.length + 1 := by omega
      have huv : u ∈ v := frontN u q₀ hq₀ (by omega)
      by_cases hun : u = n
      · subst hun
        exact hcov w hedge
      · by_cases huq : u ∈ rest.map Prod.fst
        · exfalso
          obtain ⟨e, he, heu⟩ := List.mem_map.mp huq
          have hq₀' : IsPathFrom g start e.1 q₀ := by rw [heu]; exact hq₀
          have hshort := hinv.q_short e (List.mem_cons_of_mem _ he) q₀ hq₀'
          have hdlb : p.length + 1 ≤ hd.2.length := by omega
          cases rest with
          | nil => exact List.not_mem_nil e he
          | cons r0 rest2 =>
            have hr0 : r0 = hd := Option.some.inj hhd
            have hsorted2 : ∀ b ∈ rest2.map (fun e => e.2.length),
                r0.2.length ≤ b := by
              have h := sortedO.2
              rw [List.map_cons, List.pairwise_cons] at h
              exact h.1
            rcases List.mem_cons.mp he with rfl | he2
            · rw [hr0] at hshort
              omega
            · have := hsorted2 _ (List.mem_map_of_mem _ he2)
              rw [hr0] at this
              omega
        · have hu_not : u ∉ ((n, p) :: rest).map Prod.fst := by
            rw [List.map_cons]
            intro hc
            rcases List.mem_cons.mp hc with h2 | h2
            · exact hun h2
            · exact huq h2
          exact List.mem_append_left _ (hinv.closed u huv hu_not w hedge)
  -- closed
  · intro u hu hnq m hm
    rw [hqfst] at hnq
    rcases List.mem_append.mp hu with h | h
    · by_cases hun : u = n
      · subst hun
        exact hcov m hm
      · have hu_not : u ∉ ((n, p) :: rest).map Prod.fst := by
          rw [List.map_cons]
          intro hc
          rcases List.mem_cons.mp hc with h2 | h2
          · exact hun h2
          · exact hnq (List.mem_append_left _ h2)
        exact List.mem_append_left _ (hinv.closed u h hu_not m hm)
    · exact absurd (List.mem_append_right _ h) hnq
  -- goal_in_q
  · intro hgo
    rw [hqfst]
    rcases List.mem_append.mp hgo with h | h
    · have h2 := hinv.goal_in_q h
      rw [List.map_cons] at h2
      rcases List.mem_cons.mp h2 with h3 | h3
      · exact absurd h3.symm hne
      · exact List.mem_append_left _ h3
    · exact List.mem_append_right _ h

/-- With an empty queue the visited set is closed under neighbors, so a
reachable goal would have to be visited, hence still queued: impossible. -/
theorem bfsInv_empty_queue (g : AdjMap) (start goal : String) (v : List String)
    (hinv : BfsInv g start goal v []) (hreach : Reach g start goal) : False := by
  have hcl : ∀ u ∈ v, ∀ m ∈ lookupNbrs g u, m ∈ v := by
    intro u hu
    exact hinv.closed u hu (by simp)
  obtain ⟨p, hp⟩ := hreach
  have hgv : goal ∈ v := reach_closed g v hcl p start goal hp hinv.start_vis
  have := hinv.goal_in_q hgv
  simp at this

/-- Any list returned by the loop is a duplicate-free walk from start to
goal (soundness, any fuel). -/
theorem bfsAux_sound (g : AdjMap) (start goal : String) :
    ∀ (fuel : Nat) (v : List String) (q : List (String × List String)),
      BfsInv g start goal v q → ∀ p, bfsAux g goal fuel v q = some p →
        IsPathFrom g start goal p ∧ p.Nodup := by
  intro fuel
  induction fuel with
  | zero =>
    intro v q _ p hp
    exact absurd hp (by simp [bfsAux])
  | succ fuel ih =>
    intro v q hinv p hp
    match q with
    | [] => exact absurd hp (by simp [bfsAux])
    | (curr, path) :: rest =>
      simp only [bfsAux] at hp
      by_cases hc : curr = goal
      · rw [if_pos hc] at hp
        obtain rfl : path ++ [curr] = p := Option.some.inj hp
        subst hc
        exact ⟨hinv.q_path (curr, path) (List.mem_cons_self _ _),
          hinv.q_path_nodup (curr, path) (List.mem_cons_self _ _)⟩
      · rw [if_neg hc] at hp
        exact ih _ _ (bfsInv_step g start goal v curr path rest hinv hc) p hp

/-- With enough fuel, a reachable goal is found, and the returned walk is
one of minimum length among all walks from start to goal. -/
theorem bfsAux_reach (g : AdjMap) (start goal : String) :
    ∀ (fuel : Nat) (v : List String) (q : List (String × List String)),
      BfsInv g start goal v q →
      q.length + ((start :: adjValues g).toFinset.card - v.length) ≤ fuel →
      Reach g start goal →
      ∃ p, bfsAux g goal fuel v q = some p ∧ IsPathFrom g start goal p ∧
        ∀ qp, IsPathFrom g start goal qp → p.length ≤ qp.length := by
  intro fuel
  induction fuel with
  | zero =>
    intro v q hinv hfuel hreach
    exfalso
    have hq : q = [] := by
      have : q.length = 0 := by omega
      exact List.length_eq_zero.mp this
    subst hq
    exact bfsInv_empty_queue g start goal v hinv hreach
  | succ fuel ih =>
    intro v q hinv hfuel hreach
    match q with
    | [] => exact absurd hreach (fun h =>
        bfsInv_empty_queue g start goal v hinv h)
    | (curr, path) :: rest =>
      simp only [bfsAux]
      by_cases hc : curr = goal
      · rw [if_pos hc]
        refine ⟨path ++ [curr], rfl, ?_, ?_⟩
        · subst hc
          exact hinv.q_path (curr, path) (List.mem_cons_self _ _)
        · intro qp hqp
          have hshort := hinv.q_short (curr, path) (List.mem_cons_self _ _) qp
            (by rw [hc]; exact hqp)
          simpa using hshort
      · rw [if_neg hc]
        have hinv' := bfsInv_step g start goal v curr path rest hinv hc
        obtain ⟨fresh, hv, hq2, _, _, _⟩ :=
          stepFold_spec (lookupNbrs g curr) (path ++ [curr]) v rest
        have hlen_v : (stepFold (lookupNbrs g curr) (path ++ [curr]) v rest).1.length
            = v.length + fresh.length := by rw [hv]; simp
        have hlen_q : (stepFold (lookupNbrs g curr) (path ++ [curr]) v rest).2.length
            = rest.length + fresh.length := by rw [hq2]; simp
        have hcard : (stepFold (lookupNbrs g curr) (path ++ [curr]) v rest).1.length
            ≤ (start :: adjValues g).toFinset.card :=
          nodup_length_le_card _ _ hinv'.vis_nodup hinv'.vis_allowed
        have hfuel2 : rest.length + 1 + ((start :: adjValues g).toFinset.card
            - v.length) ≤ fuel + 1 := by
          simpa using hfuel
        exact ih _ _ hinv' (by omega) hreach

/-- Soundness of bfs itself: a returned list is a duplicate-free walk from
start to goal in the given adjacency map. -/
theorem bfs_sound (g : AdjMap) (s e : String) (p : List String)
    (h : bfs g s e = some p) : IsPathFrom g s e p ∧ p.Nodup :=
  bfsAux_sound g s e (bfsFuel g s) [s] [(s, [])] (bfsInv_init g s e) p h

/-- If a label never occurs as a dict key, its neighbor lookup is empty. -/
theorem lookupNbrs_eq_nil (g : AdjMap) (s : String)
    (h : s ∉ g.map Prod.fst) : lookupNbrs g s = [] := by
  induction g with
  | nil => rfl
  | cons kv rest ih =>
    rw [List.map_cons, List.mem_cons] at h
    push_neg at h
    obtain ⟨k, vs⟩ := kv
    show lookupNbrs ((k, vs) :: rest) s = []
    rw [lookupNbrs]
    rw [if_neg (fun hc => h.1 (by rw [hc]))]
    exact ih h.2

/-- A start label absent from the map, with goal different from start, can
reach nothing but itself. -/
theorem not_reach_of_start_absent (g : AdjMap) (s e : String) (hne : s ≠ e)
    (habs : s ∉ graphLabels g) : ¬ Reach g s e := by
  intro hr
  obtain ⟨p, hp⟩ := hr
  have hkeys : s ∉ g.map Prod.fst := fun hc =>
    habs (List.mem_append_left _ hc)
  by_cases hl : p.length ≤ 1
  · exact hne (isPathFrom_short g s e p hp hl).1.symm
  · obtain ⟨hne2, hhd, hlast, hch⟩ := hp
    match p, hhd, hch, hl with
    | x :: y :: t, hhd, hch, _ =>
      have hxs : x = s := Option.some.inj hhd
      rw [List.chain'_cons] at hch
      have : y ∈ lookupNbrs g s := by rw [← hxs]; exact hch.1
      rw [lookupNbrs_eq_nil g s hkeys] at this
      exact List.not_mem_nil y this
    | [x], hhd, hch, hl => exact hl (by simp)

/-- A goal label absent from the map, with goal different from start, is
unreachable. -/
theorem not_reach_of_goal_absent (g : AdjMap) (s e : String) (hne : s ≠ e)
    (habs : e ∉ graphLabels g) : ¬ Reach g s e := by
  intro hr
  have := reach_mem_adjValues g s e hr (fun hc => hne hc.symm)
  exact habs (List.mem_append_right _ this)

/-! ## Claim theorems -/

/-- Claim C1: for every adjacency map and every pair of nodes start and
end connected in it, bfs returns a path of minimum hop count — the
returned list is a walk from start to end whose length is least among all
walks from start to end, so its hop count (length minus one) equals the
true graph distance. -/
theorem bfs_returns_shortest_path (g : AdjMap) (s e : String)
    (h : Reach g s e) :
    ∃ p, bfs g s e = some p ∧ IsPathFrom g s e p ∧
      ∀ qp, IsPathFrom g s e qp → p.length ≤ qp.length := by
  have hcard := List.toFinset_card_le (s :: adjValues g)
  refine bfsAux_reach g s e (bfsFuel g s) [s] [(s, [])]
    (bfsInv_init g s e) ?_ h
  show 1 + ((s :: adjValues g).toFinset.card - 1) ≤ (s :: adjValues g).length + 1
  omega

/-- Witness for C1 on the one-edge graph. -/
theorem bfs_returns_shortest_path_witness :
    Reach gAB "A" "B" ∧
    ∃ p, bfs gAB "A" "B" = some p ∧ IsPathFrom gAB "A" "B" p ∧
      ∀ qp, IsPathFrom gAB "A" "B" qp → p.length ≤ qp.length := by
  have h : Reach gAB "A" "B" := ⟨["A", "B"], by decide⟩
  exact ⟨h, bfs_returns_shortest_path gAB "A" "B" h⟩

/-- Claim C2 (amended): bfs returns none whenever end is not reachable
from start, in particular when start and end differ and either label is
absent from the map, and when they lie in disconnected components; however
when start = end the result is some [start] even for an absent label, so
the original claim's inclusion of the start = end case fails. -/
theorem bfs_not_found (g : AdjMap) (s e : String) :
    (¬ Reach g s e → bfs g s e = none) ∧
    (s ≠ e → s ∉ graphLabels g → bfs g s e = none) ∧
    (s ≠ e → e ∉ graphLabels g → bfs g s e = none) := by
  have key : ¬ Reach g s e → bfs g s e = none := by
    intro hnr
    cases hres : bfs g s e with
    | none => rfl
    | some p => exact absurd ⟨p, (bfs_sound g s e p hres).1⟩ hnr
  exact ⟨key, fun hne habs => key (not_reach_of_start_absent g s e hne habs),
    fun hne habs => key (not_reach_of_goal_absent g s e hne habs)⟩

/-- Witness for C2 (amended): "C" is absent from the one-edge graph and is
not reachable from "A", and bfs answers none. -/
theorem bfs_not_found_witness :
    (¬ Reach gAB "A" "C") ∧ "A" ≠ "C" ∧ "C" ∉ graphLabels gAB ∧
      bfs gAB "A" "C" = none := by
  have hnr : ¬ Reach gAB "A" "C" := by
    intro hr
    have h2 := reach_mem_adjValues gAB "A" "C" hr (by decide)
    revert h2
    decide
  exact ⟨hnr, by decide, by decide, (bfs_not_found gAB "A" "C").1 hnr⟩

/-- Claim C2 counterexample: with start = end = "X" absent from the empty
adjacency map, the claim demands NotFound, but bfs returns some ["X"]: the
seeded entry is dequeued and immediately matches end. -/
theorem bfs_absent_self_counterexample :
    "X" ∉ graphLabels ([] : AdjMap) ∧ bfs ([] : AdjMap) "X" "X" = some ["X"] :=
  ⟨by decide, by decide⟩

/-- Claim C8: for every adjacency map and every node X present in it, bfs
with start = end = X returns the single-element path [X]. -/
theorem bfs_start_eq_goal (g : AdjMap) (x : String)
    (_h : x ∈ graphLabels g) : bfs g x x = some [x] := by
  show bfsAux g x ((x :: adjValues g).length + 1) [x] [(x, [])] = some [x]
  simp [bfsAux]

/-- Witness for C8 on the one-edge graph. -/
theorem bfs_start_eq_goal_witness :
    "A" ∈ graphLabels gAB ∧ bfs gAB "A" "A" = some ["A"] :=
  ⟨by decide, bfs_start_eq_goal gAB "A" (by decide)⟩

/-- Claim C10: whenever bfs returns a list, that list is a genuine path of
the adjacency map it was given: it starts at start, ends at end, every
consecutive pair of elements is an edge of the map, and no element
repeats. -/
theorem bfs_result_is_genuine_path (g : AdjMap) (s e : String)
    (p : List String) (h : bfs g s e = some p) :
    p.head? = some s ∧ p.getLast? = some e ∧ List.Chain' (adjEdge g) p ∧
      p.Nodup := by
  have hs := bfs_sound g s e p h
  exact ⟨hs.1.2.1, hs.1.2.2.1, hs.1.2.2.2, hs.2⟩

/-- Witness for C10 on the one-edge graph. -/
theorem bfs_result_is_genuine_path_witness :
    bfs gAB "A" "B" = some ["A", "B"] ∧
    (["A", "B"].head? = some "A" ∧ ["A", "B"].getLast? = some "B" ∧
      List.Chain' (adjEdge gAB) ["A", "B"] ∧ (["A", "B"] : List String).Nodup) :=
  ⟨by decide, bfs_result_is_genuine_path gAB "A" "B" ["A", "B"] (by decide)⟩

/-! ## Lemmas about the adjacency builder -/

theorem mem_lookupNbrs_addNbr (g : AdjMap) (k v a b : String) :
    b ∈ lookupNbrs (addNbr g k v) a ↔
      b ∈ lookupNbrs g a ∨ (k = a ∧ b = v) := by
  induction g with
  | nil =>
    by_cases h : k = a <;> simp [addNbr, lookupNbrs, h]
  | cons kv rest ih =>
    obtain ⟨k', vs⟩ := kv
    by_cases h1 : k' = k
    · by_cases h2 : k' = a
      · have hka : k = a := h1 ▸ h2
        simp only [addNbr, if_pos h1, lookupNbrs, if_pos h2, hka, true_and]
        by_cases hv : v ∈ vs
        · rw [if_pos hv]
          exact ⟨Or.inl, fun h => h.elim id fun hb => hb ▸ hv⟩
        · rw [if_neg hv]
          simp
      · have hka : k ≠ a := fun hc => h2 (h1.trans hc)
        simp only [addNbr, if_pos h1, lookupNbrs, if_neg h2, hka, false_and,
          or_false]
    · by_cases h2 : k' = a
      · have hka : k ≠ a := fun hc => h1 (h2.trans hc.symm)
        simp only [addNbr, if_neg h1, lookupNbrs, if_pos h2, hka, false_and,
          or_false]
      · simp only [addNbr, if_neg h1, lookupNbrs, if_neg h2]
        exact ih

theorem addPair_mem (g : AdjMap) (s r : String) :
    r ∈ lookupNbrs (addPair g s r) s ∧ s ∈ lookupNbrs (addPair g s r) r := by
  constructor
  · exact (mem_lookupNbrs_addNbr (addNbr g s r) r s s r).mpr
      (Or.inl ((mem_lookupNbrs_addNbr g s r s r).mpr (Or.inr ⟨rfl, rfl⟩)))
  · exact (mem_lookupNbrs_addNbr (addNbr g s r) r s r s).mpr
      (Or.inr ⟨rfl, rfl⟩)

theorem symAdj_addPair (g : AdjMap) (s r : String) (h : SymAdj g) :
    SymAdj (addPair g s r) := by
  intro a b hb
  rcases (mem_lookupNbrs_addNbr (addNbr g s r) r s a b).mp hb with hb1 | ⟨h1, h2⟩
  · rcases (mem_lookupNbrs_addNbr g s r a b).mp hb1 with hb2 | ⟨h3, h4⟩
    · exact (mem_lookupNbrs_addNbr (addNbr g s r) r s b a).mpr
        (Or.inl ((mem_lookupNbrs_addNbr g s r b a).mpr (Or.inl (h a b hb2))))
    · rw [← h3, h4]
      exact (addPair_mem g s r).2
  · rw [← h1, h2]
    exact (addPair_mem g s r).1

theorem mem_innerPairs_mono (rn : String) (stops : List String) :
    ∀ (g : AdjMap) (a b : String), b ∈ lookupNbrs g a →
      b ∈ lookupNbrs (innerPairs rn stops g) a := by
  induction stops with
  | nil => intro g a b hb; exact hb
  | cons s stops ih =>
    intro g a b hb
    exact ih (addPair g s rn) a b
      ((mem_lookupNbrs_addNbr (addNbr g s rn) rn s a b).mpr
        (Or.inl ((mem_lookupNbrs_addNbr g s rn a b).mpr (Or.inl hb))))

theorem symAdj_innerPairs (rn : String) (stops : List String) :
    ∀ g : AdjMap, SymAdj g → SymAdj (innerPairs rn stops g) := by
  induction stops with
  | nil => intro g h; exact h
  | cons s stops ih => intro g h; exact ih _ (symAdj_addPair g s rn h)

theorem mem_innerPairs_self (rn : String) (stops : List String) :
    ∀ (g : AdjMap) (s : String), s ∈ stops →
      rn ∈ lookupNbrs (innerPairs rn stops g) s ∧
      s ∈ lookupNbrs (innerPairs rn stops g) rn := by
  induction stops with
  | nil => intro g s hs; exact absurd hs (List.not_mem_nil s)
  | cons s0 stops ih =>
    intro g s hs
    rcases List.mem_cons.mp hs with rfl | hs2
    · exact ⟨mem_innerPairs_mono rn stops _ s rn (addPair_mem g s rn).1,
        mem_innerPairs_mono rn stops _ rn s (addPair_mem g s rn).2⟩
    · exact ih (addPair g s0 rn) s hs2

theorem mem_buildAux_mono (stopsFor : String → List String)
    (routes : List RouteRec) :
    ∀ (g : AdjMap) (a b : String),
      b ∈ lookupNbrs g a →
      b ∈ lookupNbrs (routes.foldl
        (fun g' route => innerPairs route.long_name (stopsFor route.id) g') g)
        a := by
  induction routes with
  | nil => intro g a b hb; exact hb
  | cons r routes ih =>
    intro g a b hb
    exact ih _ a b (mem_innerPairs_mono r.long_name (stopsFor r.id) g a b hb)

theorem symAdj_buildAux (stopsFor : String → List String)
    (routes : List RouteRec) :
    ∀ (g : AdjMap), SymAdj g →
      SymAdj (routes.foldl
        (fun g' route => innerPairs route.long_name (stopsFor route.id) g')
        g) := by
  induction routes with
  | nil => intro g h; exact h
  | cons r routes ih =>
    intro g h
    exact ih _ (symAdj_innerPairs r.long_name (stopsFor r.id) g h)

theorem mem_buildAux_est (stopsFor : String → List String)
    (routes : List RouteRec) :
    ∀ (g : AdjMap) (r : RouteRec), r ∈ routes →
      ∀ s ∈ stopsFor r.id,
      s ∈ lookupNbrs (routes.foldl
        (fun g' route => innerPairs route.long_name (stopsFor route.id) g') g)
        r.long_name ∧
      r.long_name ∈ lookupNbrs (routes.foldl
        (fun g' route => innerPairs route.long_name (stopsFor route.id) g') g)
        s := by
  induction routes with
  | nil => intro g r hr; exact absurd hr (List.not_mem_nil r)
  | cons r0 routes ih =>
    intro g r hr s hs
    rcases List.mem_cons.mp hr with rfl | hr2
    · have hest := mem_innerPairs_self r.long_name (stopsFor r.id) g s hs
      exact ⟨mem_buildAux_mono stopsFor routes _ r.long_name s hest.2,
        mem_buildAux_mono stopsFor routes _ s r.long_name hest.1⟩
    · exact ih _ r hr2 s hs

/-- Claim C7: the adjacency map built for the path finder is complete and
symmetric — every (route, stop) pair observed in the data source records
yields both directed edges, and any stored edge has its reverse stored. -/
theorem adjacency_symmetric_complete (routes : List RouteRec)
    (stopsFor : String → List String) :
    (∀ r ∈ routes, ∀ s ∈ stopsFor r.id,
      s ∈ lookupNbrs (buildAdjacency routes stopsFor) r.long_name ∧
      r.long_name ∈ lookupNbrs (buildAdjacency routes stopsFor) s) ∧
    SymAdj (buildAdjacency routes stopsFor) := by
  constructor
  · intro r hr s hs
    exact mem_buildAux_est stopsFor routes [] r hr s hs
  · exact symAdj_buildAux stopsFor routes []
      (fun a b hb => absurd hb (List.not_mem_nil b))

/-- Witness for C7 on a concrete two-route data source. -/
theorem adjacency_symmetric_complete_witness :
    (⟨"r1", "Red"⟩ : RouteRec) ∈ routesW ∧ "Park" ∈ stopsForW "r1" ∧
    ("Park" ∈ lookupNbrs (buildAdjacency routesW stopsForW) "Red" ∧
      "Red" ∈ lookupNbrs (buildAdjacency routesW stopsForW) "Park") := by
  have h := (adjacency_symmetric_complete routesW stopsForW).1 ⟨"r1", "Red"⟩
    (by decide) "Park" (by decide)
  exact ⟨by decide, by decide, h⟩

/-! ## Lemmas about the route statistics -/

theorem minEntry_spec (l : List (String × List String)) :
    ∀ b : String × List String,
      ∃ c, minEntry (some b) l = some c ∧ (c = b ∨ c ∈ l) ∧
        c.2.length ≤ b.2.length ∧
        ∀ kv ∈ l, c.2.length ≤ (kv : String × List String).2.length := by
  induction l with
  | nil =>
    intro b
    exact ⟨b, rfl, Or.inl rfl, le_refl _, by simp⟩
  | cons kv rest ih =>
    intro b
    show ∃ c, minEntry (some (if kv.2.length < b.2.length then kv else b)) rest
      = some c ∧ _
    by_cases h : kv.2.length < b.2.length
    · rw [if_pos h]
      obtain ⟨c, h1, h2, h3, h4⟩ := ih kv
      refine ⟨c, h1, ?_, by omega, ?_⟩
      · rcases h2 with h2 | h2
        · exact Or.inr (h2 ▸ List.mem_cons_self kv rest)
        · exact Or.inr (List.mem_cons_of_mem _ h2)
      · intro e he
        rcases List.mem_cons.mp he with rfl | he2
        · exact h3
        · exact h4 e he2
    · rw [if_neg h]
      obtain ⟨c, h1, h2, h3, h4⟩ := ih b
      refine ⟨c, h1, ?_, h3, ?_⟩
      · rcases h2 with h2 | h2
        · exact Or.inl h2
        · exact Or.inr (List.mem_cons_of_mem _ h2)
      · intro e he
        rcases List.mem_cons.mp he with rfl | he2
        · omega
        · exact h4 e he2

theorem maxEntry_spec (l : List (String × List String)) :
    ∀ b : String × List String,
      ∃ c, maxEntry (some b) l = some c ∧ (c = b ∨ c ∈ l) ∧
        b.2.length ≤ c.2.length ∧
        ∀ kv ∈ l, (kv : String × List String).2.length ≤ c.2.length := by
  induction l with
  | nil =>
    intro b
    exact ⟨b, rfl, Or.inl rfl, le_refl _, by simp⟩
  | cons kv rest ih =>
    intro b
    show ∃ c, maxEntry (some (if b.2.length < kv.2.length then kv else b)) rest
      = some c ∧ _
    by_cases h : b.2.length < kv.2.length
    · rw [if_pos h]
      obtain ⟨c, h1, h2, h3, h4⟩ := ih kv
      refine ⟨c, h1, ?_, by omega, ?_⟩
      · rcases h2 with h2 | h2
        · exact Or.inr (h2 ▸ List.mem_cons_self kv rest)
        · exact Or.inr (List.mem_cons_of_mem _ h2)
      · intro e he
        rcases List.mem_cons.mp he with rfl | he2
        · exact h3
        · exact h4 e he2
    · rw [if_neg h]
      obtain ⟨c, h1, h2, h3, h4⟩ := ih b
      refine ⟨c, h1, ?_, h3, ?_⟩
      · rcases h2 with h2 | h2
        · exact Or.inl h2
        · exact Or.inr (List.mem_cons_of_mem _ h2)
      · intro e he
        rcases List.mem_cons.mp he with rfl | he2
        · omega
        · exact h4 e he2

/-- Claim C4 (amended): on every non-empty route-to-stops mapping,
compute_route_with_least_stops returns an entry whose stop list is
shortest, paired with its list length, and compute_route_with_most_stops
one whose stop list is longest, paired with its list length — the counts
are list lengths with multiplicity, which agree with distinct-stop counts
exactly when the stop lists are duplicate-free; on the spec's example the
results are ("Blue", 2) and ("Red", 3). -/
theorem route_stats_extremal (m : List (String × List String))
    (hne : m ≠ []) :
    (∃ r stops, (r, stops) ∈ m ∧
      compute_route_with_least_stops m = some (r, stops.length) ∧
      ∀ kv ∈ m, stops.length ≤ (kv : String × List String).2.length) ∧
    (∃ r stops, (r, stops) ∈ m ∧
      compute_route_with_most_stops m = some (r, stops.length) ∧
      ∀ kv ∈ m, (kv : String × List String).2.length ≤ stops.length) ∧
    compute_route_with_least_stops rbExample = some ("Blue", 2) ∧
    compute_route_with_most_stops rbExample = some ("Red", 3) := by
  match m, hne with
  | kv0 :: rest, _ =>
    refine ⟨?_, ?_, by decide, by decide⟩
    · obtain ⟨c, h1, h2, h3, h4⟩ := minEntry_spec rest kv0
      refine ⟨c.1, c.2, ?_, ?_, ?_⟩
      · rcases h2 with h2 | h2
        · exact h2 ▸ List.mem_cons_self kv0 rest
        · exact List.mem_cons_of_mem _ h2
      · show compute_route_with_least_stops (kv0 :: rest) = _
        rw [compute_route_with_least_stops]
        show (match minEntry (some kv0) rest with
          | none => none
          | some kv => some (kv.1, kv.2.length)) = _
        rw [h1]
      · intro e he
        rcases List.mem_cons.mp he with rfl | he2
        · exact h3
        · exact h4 e he2
    · obtain ⟨c, h1, h2, h3, h4⟩ := maxEntry_spec rest kv0
      refine ⟨c.1, c.2, ?_, ?_, ?_⟩
      · rcases h2 with h2 | h2
        · exact h2 ▸ List.mem_cons_self kv0 rest
        · exact List.mem_cons_of_mem _ h2
      · show compute_route_with_most_stops (kv0 :: rest) = _
        rw [compute_route_with_most_stops]
        show (match maxEntry (some kv0) rest with
          | none => none
          | some kv => some (kv.1, kv.2.length)) = _
        rw [h1]
      · intro e he
        rcases List.mem_cons.mp he with rfl | he2
        · exact h3
        · exact h4 e he2

/-- Witness for C4 (amended) on the spec's Red/Blue example map. -/
theorem route_stats_extremal_witness :
    rbExample ≠ [] ∧
    compute_route_with_least_stops rbExample = some ("Blue", 2) ∧
    compute_route_with_most_stops rbExample = some ("Red", 3) :=
  ⟨by decide, (route_stats_extremal rbExample (by decide)).2.2.1,
    (route_stats_extremal rbExample (by decide)).2.2.2⟩

/-- Claim C4 counterexample: on the map Red ↦ [a, a], Blue ↦ [b, c] the
code compares list lengths with multiplicity (both 2) and returns
("Red", 2) for both extremes, although Red serves only 1 distinct stop and
Blue serves 2 — so neither result is a route with the claimed extremal
distinct-stop count paired with that distinct count. -/
theorem route_stats_distinct_counterexample :
    compute_route_with_most_stops dupStops = some ("Red", 2) ∧
    compute_route_with_least_stops dupStops = some ("Red", 2) ∧
    (["a", "a"] : List String).toFinset.card = 1 ∧
    (["b", "c"] : List String).toFinset.card = 2 := by
  refine ⟨by decide, by decide, ?_, ?_⟩ <;> decide

/-- Claim C9: on the empty route-to-stops map both statistics operations
fail (Python min/max raise ValueError, embedded as none), and on every
non-empty map both succeed. -/
theorem route_stats_empty_map (m : List (String × List String)) :
    (compute_route_with_least_stops [] = none ∧
      compute_route_with_most_stops [] = none) ∧
    (m ≠ [] → (compute_route_with_least_stops m).isSome ∧
      (compute_route_with_most_stops m).isSome) := by
  refine ⟨⟨rfl, rfl⟩, ?_⟩
  intro hne
  match m, hne with
  | kv0 :: rest, _ =>
    constructor
    · obtain ⟨c, h1, _, _, _⟩ := minEntry_spec rest kv0
      show (match minEntry (some kv0) rest with
        | none => none
        | some kv => some (kv.1, kv.2.length)).isSome = true
      rw [h1]
      rfl
    · obtain ⟨c, h1, _, _, _⟩ := maxEntry_spec rest kv0
      show (match maxEntry (some kv0) rest with
        | none => none
        | some kv => some (kv.1, kv.2.length)).isSome = true
      rw [h1]
      rfl

/-- Witness for C9 on the spec's Red/Blue example map. -/
theorem route_stats_empty_map_witness :
    rbExample ≠ [] ∧ (compute_route_with_least_stops rbExample).isSome ∧
      (compute_route_with_most_stops rbExample).isSome :=
  ⟨by decide, (route_stats_empty_map rbExample).2 (by decide)⟩

/-- Claim C3 (amended): a stop is reported by the transfer analysis if and
only if its stored route list has more than one entry; when every stop's
route list is duplicate-free (the program's intended situation, route long
names being assumed unique) this is exactly "served by two or more
distinct routes", and the spec's Park/Wood example yields exactly
[("Park", ["Red", "Green"])]. -/
theorem transfer_stops_iff (m : List (String × List String))
    (hnd : ∀ kv ∈ m, (kv : String × List String).2.Nodup) :
    (∀ kv, kv ∈ transferStops m ↔
      kv ∈ m ∧ 2 ≤ (kv : String × List String).2.toFinset.card) ∧
    transferStops [("Park", ["Red", "Green"]), ("Wood", ["Red"])] =
      [("Park", ["Red", "Green"])] := by
  constructor
  · intro kv
    rw [transferStops, List.mem_filter]
    constructor
    · rintro ⟨h1, h2⟩
      have h2' : 1 < kv.2.length := by simpa using h2
      rw [List.toFinset_card_of_nodup (hnd kv h1)]
      exact ⟨h1, by omega⟩
    · rintro ⟨h1, h2⟩
      rw [List.toFinset_card_of_nodup (hnd kv h1)] at h2
      exact ⟨h1, by simpa using h2⟩
  · decide

/-- Witness for C3 (amended) on the spec's Park/Wood example. -/
theorem transfer_stops_iff_witness :
    (∀ kv ∈ [("Park", ["Red", "Green"]), ("Wood", ["Red"])],
      (kv : String × List String).2.Nodup) ∧
    (("Park", ["Red", "Green"]) ∈
      transferStops [("Park", ["Red", "Green"]), ("Wood", ["Red"])] ↔
      ("Park", ["Red", "Green"]) ∈
        ([("Park", ["Red", "Green"]), ("Wood", ["Red"])] :
          List (String × List String)) ∧
      2 ≤ (["Red", "Green"] : List String).toFinset.card) := by
  have hnd : ∀ kv ∈ ([("Park", ["Red", "Green"]), ("Wood", ["Red"])] :
      List (String × List String)), (kv : String × List String).2.Nodup := by
    decide
  exact ⟨hnd, (transfer_stops_iff _ hnd).1 ("Park", ["Red", "Green"])⟩

/-- Claim C3 counterexample: on the mapping Park ↦ [Red, Red] the code
reports Park because its list has length 2, yet Park is served by exactly
one distinct route, so "reported iff served by two or more distinct
routes" fails. -/
theorem transfer_stops_distinct_counterexample :
    transferStops dupRoutes = [("Park", ["Red", "Red"])] ∧
    (["Red", "Red"] : List String).toFinset.card = 1 := by
  refine ⟨by decide, by decide⟩

/-! ## Lemmas about the fetch cache -/

theorem lookupCache_append_self {α : Type} (c : List (String × α))
    (url : String) (v : α) (h : lookupCache c url = none) :
    lookupCache (c ++ [(url, v)]) url = some v := by
  induction c with
  | nil => simp [lookupCache]
  | cons kv rest ih =>
    obtain ⟨k, v0⟩ := kv
    rw [lookupCache] at h
    by_cases hk : k = url
    · rw [if_pos hk] at h
      exact absurd h (by simp)
    · rw [if_neg hk] at h
      show lookupCache ((k, v0) :: (rest ++ [(url, v)])) url = some v
      rw [lookupCache, if_neg hk]
      exact ih h

/-- Claim C5: a cache miss followed by a successful data-source response
(no transport error, status below 400) performs exactly one underlying
invocation and stores the response; the second call with the same key hits
the cache, performs zero invocations, returns the stored response and
leaves the cache unchanged. -/
theorem cache_single_invocation {α : Type}
    (fetch : String → Except String (Resp α)) (c : List (String × Resp α))
    (url : String) (r : Resp α) (hmiss : lookupCache c url = none)
    (hok : fetch url = Except.ok r) (hst : r.status < 400) :
    get_cached fetch c url = (Except.ok r, c ++ [(url, r)], 1) ∧
    get_cached fetch (c ++ [(url, r)]) url =
      (Except.ok r, c ++ [(url, r)], 0) := by
  constructor
  · have hng : ¬ 400 ≤ r.status := by omega
    simp only [get_cached, hmiss, hok, if_neg hng]
  · simp only [get_cached, lookupCache_append_self c url r hmiss]

/-- Witness for C5 with a concrete stub data source. -/
theorem cache_single_invocation_witness :
    lookupCache ([] : List (String × Resp (List String))) "u" = none ∧
    stubFetchOk "u" = Except.ok ⟨200, Except.ok ["x"]⟩ ∧
    ((⟨200, Except.ok ["x"]⟩ : Resp (List String)).status < 400) ∧
    (get_cached stubFetchOk [] "u" =
      (Except.ok ⟨200, Except.ok ["x"]⟩, [("u", ⟨200, Except.ok ["x"]⟩)], 1) ∧
     get_cached stubFetchOk [("u", ⟨200, Except.ok ["x"]⟩)] "u" =
      (Except.ok ⟨200, Except.ok ["x"]⟩, [("u", ⟨200, Except.ok ["x"]⟩)], 0)) :=
  ⟨rfl, rfl, by decide,
    cache_single_invocation stubFetchOk [] "u" ⟨200, Except.ok ["x"]⟩ rfl rfl
      (by decide)⟩

/-- Claim C6 (amended): failures that get_cached itself observes — a
transport error from the data source or a response status of 400 or above
— propagate as errors, perform one invocation and leave the cache exactly
as it was, so the next call with the same key contacts the data source
again; a malformed payload carried by a success status is however stored
(the .json() parse happens at the caller, after caching). -/
theorem cache_failure_not_stored {α : Type}
    (fetch : String → Except String (Resp α)) (c : List (String × Resp α))
    (url : String) (hmiss : lookupCache c url = none) :
    (∀ msg, fetch url = Except.error msg →
      get_cached fetch c url = (Except.error msg, c, 1)) ∧
    (∀ r : Resp α, fetch url = Except.ok r → 400 ≤ r.status →
      get_cached fetch c url = (Except.error "HTTPError", c, 1)) := by
  constructor
  · intro msg herr
    simp only [get_cached, hmiss, herr]
  · intro r hok hst
    simp only [get_cached, hmiss, hok, if_pos hst]

/-- Witness for C6 (amended) with a transport-failing stub and a
500-status stub. -/
theorem cache_failure_not_stored_witness :
    lookupCache ([] : List (String × Resp (List String))) "u" = none ∧
    stubFetchErr "u" = Except.error "transport" ∧
    stubFetch500 "u" = Except.ok ⟨500, Except.ok []⟩ ∧
    (400 : Nat) ≤ 500 ∧
    get_cached stubFetchErr [] "u" = (Except.error "transport", [], 1) ∧
    get_cached stubFetch500 [] "u" = (Except.error "HTTPError", [], 1) :=
  ⟨rfl, rfl, rfl, by omega,
    (cache_failure_not_stored stubFetchErr [] "u" rfl).1 "transport" rfl,
    (cache_failure_not_stored stubFetch500 [] "u" rfl).2 ⟨500, Except.ok []⟩
      rfl (by decide)⟩

/-- Claim C6 counterexample: a 200-status response whose payload does not
parse is an error for the caller, yet the failing first call stores the
response (the cache grows from empty), and the second call with the same
key performs zero data-source invocations instead of retrying. -/
theorem cache_malformed_cached_counterexample :
    getJson stubFetchBad ([] : List (String × Resp (List String))) "u" =
      (Except.error "malformed", [("u", respBad)], 1) ∧
    getJson stubFetchBad [("u", respBad)] "u" =
      (Except.error "malformed", [("u", respBad)], 0) :=
  ⟨rfl, rfl⟩

end Subway
